import Mathlib

/-!
Verification of the FixItAll drawing-analysis pipeline (`fixit_all_agent.py`).

Shallow embedding conventions:
* Python strings are `List Char`; `str.lower` is ASCII lowering (`Char.toLower`),
  which agrees with CPython on all ASCII text.
* Python floats are modelled as exact rationals (`ℚ`); every numeric literal the
  program parses is a decimal string, so its value is an exact rational, and all
  thresholds compared against (2.3, 0.9, 0.762) are exact decimals.
* The regular-expression scans are embedded as deterministic maximal-munch
  matchers.  For each pattern appearing in the source the greedy first attempt
  either succeeds or no backtracking alternative can succeed (units, thickness
  and scale tokens start with non-digit, non-space characters), so maximal
  munch coincides with CPython `re` semantics on these patterns; `re.findall`
  is the scan that tries each position left to right and resumes after the end
  of every match.
* Formatted issue strings `f"... {value} m"` are modelled as the inductive
  `Issue`, which keeps the category and the interpolated value.
-/

/-- Python regex class `\s` (ASCII part): the six ASCII whitespace characters. -/
def isSpaceCh (c : Char) : Bool :=
  c = ' ' || c = '\t' || c = '\n' || c = '\x0d' || c = '\x0b' || c = '\x0c'

/-- `str.lower` on ASCII text: lower every character. -/
def strLower (cs : List Char) : List Char := cs.map Char.toLower

/-- Value of a list of decimal digit characters, most significant first. -/
def natOfDigits (ds : List Char) : ℕ :=
  ds.foldl (fun n c => 10 * n + (c.toNat - 48)) 0

/-- Exact value of the decimal literal `ip` `[. fp]` — models Python
`float(val)` on the strings matched by `\d+(?:\.\d+)?` (exact, no binary
rounding). -/
def numVal (ip : List Char) (fp : Option (List Char)) : ℚ :=
  (natOfDigits ip : ℚ) +
    match fp with
    | none => 0
    | some fs => (natOfDigits fs : ℚ) / 10 ^ fs.length

/-- The optional fractional part `(?:\.\d+)?`: consumed only when a dot is
directly followed by at least one digit.  Returns the digits (if the group
participates) and the remaining input. -/
def fracAt : List Char → Option (List Char) × List Char
  | '.' :: r =>
    if (r.takeWhile Char.isDigit).isEmpty then (none, '.' :: r)
    else (some (r.takeWhile Char.isDigit), r.dropWhile Char.isDigit)
  | r => (none, r)

/-- The unit alternation `(mm|cm|m)`, alternatives tried in source order, on
already-lowered text. -/
def unitAt : List Char → Option (String × List Char)
  | 'm' :: 'm' :: r => some ("mm", r)
  | 'c' :: 'm' :: r => some ("cm", r)
  | 'm' :: r => some ("m", r)
  | _ => none

/-- One attempt of the measurement pattern `(\d+(?:\.\d+)?)\s*(mm|cm|m)`
anchored at the head of `cs` (text already lowered): greedy digits, optional
fraction, greedy whitespace, then the unit alternation.  Returns the parsed
(value, unit) pair and the input remaining after the match. -/
def matchAt (cs : List Char) : Option ((ℚ × String) × List Char) :=
  if (cs.takeWhile Char.isDigit).isEmpty then none
  else
    match unitAt ((fracAt (cs.dropWhile Char.isDigit)).2.dropWhile isSpaceCh) with
    | some (u, r4) =>
      some ((numVal (cs.takeWhile Char.isDigit) (fracAt (cs.dropWhile Char.isDigit)).1, u), r4)
    | none => none

theorem fracAt_length_le (cs : List Char) : (fracAt cs).2.length ≤ cs.length := by
  unfold fracAt
  split
  · split
    · simp
    · rename_i r _
      have := (List.dropWhile_sublist (l := r) Char.isDigit).length_le
      simp only [List.length_cons]
      omega
  · simp

theorem unitAt_length_lt {cs : List Char} {u : String} {r : List Char}
    (h : unitAt cs = some (u, r)) : r.length < cs.length := by
  unfold unitAt at h
  split at h <;> simp_all <;> omega

theorem matchAt_length_lt {cs : List Char} {m : ℚ × String} {rest : List Char}
    (h : matchAt cs = some (m, rest)) : rest.length < cs.length := by
  rw [matchAt] at h
  split at h
  · exact absurd h (by simp)
  · rename_i hds
    split at h
    · rename_i u r4 hu
      have h4 : rest = r4 := by simp_all
      subst h4
      have h1 : (cs.dropWhile Char.isDigit).length < cs.length := by
        have hsplit := List.takeWhile_append_dropWhile Char.isDigit cs
        have : (cs.takeWhile Char.isDigit).length ≠ 0 := by
          simpa [List.isEmpty_iff_length_eq_zero] using hds
        have := congrArg List.length hsplit
        simp only [List.length_append] at this
        omega
      have h2 := fracAt_length_le (cs.dropWhile Char.isDigit)
      have h3 : ((fracAt (cs.dropWhile Char.isDigit)).2.dropWhile isSpaceCh).length
          ≤ (fracAt (cs.dropWhile Char.isDigit)).2.length :=
        List.dropWhile_sublist _ |>.length_le
      have := unitAt_length_lt hu
      omega
    · exact absurd h (by simp)

/-- `re.findall` for the measurement pattern: try a match at each position,
resume after every match, advance one character on failure.  Structural
recursion on a fuel bound; every iteration consumes at least one character
(`matchAt_length_lt`), so `cs.length` fuel always runs the scan to the end of
the input (`scanMeasurementsF_fuel`). -/
def scanMeasurementsF : ℕ → List Char → List (ℚ × String)
  | 0, _ => []
  | _, [] => []
  | fuel + 1, c :: cs' =>
    match matchAt (c :: cs') with
    | some (m, rest) => m :: scanMeasurementsF fuel rest
    | none => scanMeasurementsF fuel cs'

theorem scanMeasurementsF_fuel : ∀ (fuel : ℕ) (cs : List Char), cs.length ≤ fuel →
    scanMeasurementsF fuel cs = scanMeasurementsF cs.length cs := by
  intro fuel
  induction fuel using Nat.strong_induction_on with
  | _ fuel ih =>
    intro cs hcs
    match fuel, cs with
    | 0, cs =>
      have hl : cs.length = 0 := Nat.le_zero.mp hcs
      rw [List.length_eq_zero] at hl
      subst hl
      rfl
    | fuel + 1, [] => rfl
    | fuel + 1, c :: cs' =>
      rw [scanMeasurementsF]
      simp only [List.length_cons]
      rw [scanMeasurementsF]
      split
      · rename_i m rest h
        have hlt := matchAt_length_lt h
        simp only [List.length_cons] at hlt hcs
        rw [ih fuel (by omega) rest (by omega), ih cs'.length (by omega) rest (by omega)]
      · have : cs'.length ≤ fuel := by
          simp only [List.length_cons] at hcs
          omega
        rw [ih fuel (by omega) cs' this, ih cs'.length (by omega) cs' (by omega)]

/-- `DrawingAnalyzer.extract_measurements`:
`re.findall(r'(\d+(?:\.\d+)?)\s*(mm|cm|m)', text.lower())` followed by
`float` on the numeric group. -/
def extract_measurements (text : List Char) : List (ℚ × String) :=
  scanMeasurementsF (strLower text).length (strLower text)

/-- `ComplianceChecker.MIN_CEILING_HEIGHT` (2.3 m). -/
def MIN_CEILING_HEIGHT : ℚ := 23 / 10

/-- `ComplianceChecker.MIN_CORRIDOR_WIDTH` (0.9 m). -/
def MIN_CORRIDOR_WIDTH : ℚ := 9 / 10

/-- `ComplianceChecker.MIN_DOOR_WIDTH` (0.762 m). -/
def MIN_DOOR_WIDTH : ℚ := 762 / 1000

/-- One compliance issue string; the constructor is the fixed message text and
the argument is the interpolated (normalized) value. -/
inductive Issue where
  | ceiling (v : ℚ)
  | corridor (v : ℚ)
  | door (v : ℚ)
deriving DecidableEq

/-- The in-loop unit conversion shared verbatim by `check_compliance` and
`generate_boq`: `value/1000` for `'mm'`, `value/100` for `'cm'`, unchanged
otherwise. -/
def normalizeUnit (value : ℚ) (unit : String) : ℚ :=
  if unit = "mm" then value / 1000
  else if unit = "cm" then value / 100
  else value

/-- `ComplianceChecker.check_compliance`: the loop body, appending one issue
per threshold the normalized value is strictly below. -/
def complianceStep (issues : List Issue) (m : ℚ × String) : List Issue :=
  let value := normalizeUnit m.1 m.2
  let issues := if value < MIN_CEILING_HEIGHT then issues ++ [.ceiling value] else issues
  let issues := if value < MIN_CORRIDOR_WIDTH then issues ++ [.corridor value] else issues
  if value < MIN_DOOR_WIDTH then issues ++ [.door value] else issues

/-- `ComplianceChecker.check_compliance`: fold of the loop body over the
measurement list, starting from the empty issue list. -/
def check_compliance (measurements : List (ℚ × String)) : List Issue :=
  measurements.foldl complianceStep []

/-- The issues one single normalized value generates (used to characterize the
loop; not part of the source). -/
def singleIssues (value : ℚ) : List Issue :=
  (if value < MIN_CEILING_HEIGHT then [Issue.ceiling value] else []) ++
    (if value < MIN_CORRIDOR_WIDTH then [Issue.corridor value] else []) ++
      (if value < MIN_DOOR_WIDTH then [Issue.door value] else [])

theorem complianceStep_eq (issues : List Issue) (m : ℚ × String) :
    complianceStep issues m = issues ++ singleIssues (normalizeUnit m.1 m.2) := by
  unfold complianceStep singleIssues
  by_cases h1 : normalizeUnit m.1 m.2 < MIN_CEILING_HEIGHT <;>
    by_cases h2 : normalizeUnit m.1 m.2 < MIN_CORRIDOR_WIDTH <;>
      by_cases h3 : normalizeUnit m.1 m.2 < MIN_DOOR_WIDTH <;>
        simp [h1, h2, h3]

theorem check_compliance_foldl (measurements : List (ℚ × String)) :
    ∀ acc : List Issue,
      measurements.foldl complianceStep acc
        = acc ++ measurements.flatMap (fun m => singleIssues (normalizeUnit m.1 m.2)) := by
  induction measurements with
  | nil => simp
  | cons m ms ih =>
    intro acc
    simp only [List.foldl_cons, List.flatMap_cons, ih, complianceStep_eq,
      List.append_assoc]

/-- Python `round(x, 2)`: round to 2 decimal places.  Mathlib `round` rounds
half up while CPython rounds half to even; for values parsed from decimal
strings the scaled quantity can never land exactly on a half (shown by a
2-adic valuation argument), so the two agree on every value this program can
produce. -/
def roundTo2 (q : ℚ) : ℚ := (round (q * 100) : ℚ) / 100

/-- One line of the bill of quantities: `{'material': ..., 'quantity_m2': ...}`. -/
structure BOQLine where
  material : String
  quantity_m2 : ℚ
deriving DecidableEq

/-- One record produced by `MaterialAnalyzer.extract_materials`:
`{'material': m[0], 'type': m[1], 'thickness': m[2]}` (the Python dict field
`type` is called `mtype` here). -/
structure MaterialEntry where
  material : String
  mtype : String
  thickness : String
deriving DecidableEq

/-- `BOQGenerator.generate_boq`: per measurement convert the value to meters
(`mm`→/1000, `cm`→/100), square it, round to 2 decimals, and append a line
with the fixed placeholder material.  The `materials` argument is accepted and
ignored, as in the source. -/
def generate_boq (measurements : List (ℚ × String)) (materials : List MaterialEntry) : List BOQLine :=
  measurements.foldl
    (fun boq m =>
      boq ++ [{ material := "Generic Material",
                quantity_m2 := roundTo2 (normalizeUnit m.1 m.2 * normalizeUnit m.1 m.2) }])
    []

/-- `MissingInfoDetector.detect_missing_info`: three case-insensitive substring
tests, one fixed message appended per phrase absent. -/
def hasSub (needle hay : List Char) : Bool :=
  hay.tails.any (fun t => needle.isPrefixOf t)

/-- `MissingInfoDetector.detect_missing_info` on the extracted text. -/
def detect_missing_info (text : List Char) : List String :=
  (if hasSub "flooring".toList (strLower text) then [] else ["Missing Flooring Information"]) ++
    (if hasSub "insulation".toList (strLower text) then [] else ["Missing Insulation Information"]) ++
      (if hasSub "wall finish".toList (strLower text) then [] else ["Missing Wall Finish Information"])

/-- Case-insensitive literal match (`re.IGNORECASE` on ASCII): consume exactly
the pattern, returning the consumed characters in their original case and the
remaining input. -/
def ciMatch : List Char → List Char → Option (List Char × List Char)
  | [], cs => some ([], cs)
  | _ :: _, [] => none
  | p :: ps, c :: cs =>
    if c.toLower = p.toLower then
      match ciMatch ps cs with
      | some (m, r) => some (c :: m, r)
      | none => none
    else none

/-- The optional separator class `[:\-]?` of the scale pattern. -/
def skipColonDash : List Char → List Char
  | ':' :: r => r
  | '-' :: r => r
  | r => r

/-- One attempt of `Scale\s*[:\-]?\s*1[:]\s*(\d+)` (case-insensitive) anchored
at the head of `cs`; yields `int(group(1))` on success. -/
def scaleMatchAt (cs : List Char) : Option ℕ :=
  match ciMatch "Scale".toList cs with
  | none => none
  | some (_, r1) =>
    match (skipColonDash (r1.dropWhile isSpaceCh)).dropWhile isSpaceCh with
    | '1' :: ':' :: r5 =>
      if ((r5.dropWhile isSpaceCh).takeWhile Char.isDigit).isEmpty then none
      else some (natOfDigits ((r5.dropWhile isSpaceCh).takeWhile Char.isDigit))
    | _ => none

/-- `re.search` for the scale pattern: first position (left to right) where
the pattern matches. -/
def searchScale : List Char → Option ℕ
  | [] => none
  | c :: cs =>
    match scaleMatchAt (c :: cs) with
    | some n => some n
    | none => searchScale cs

/-- `DrawingAnalyzer.extract_scale`: `int(match.group(1))` of the first match,
`None` when the pattern does not occur. -/
def extract_scale (text : List Char) : Option ℕ := searchScale text

/-- Inner cells of one Wagner–Fischer row for the indel edit distance
(substitution cost 2): walks the second word and the previous row together. -/
def levRow (x : Char) : List Char → List ℕ → ℕ → ℕ → List ℕ
  | y :: ys, pj :: prest, pdiag, dprev =>
    min (min (pj + 1) (dprev + 1)) (pdiag + (if x = y then 0 else 2)) ::
      levRow x ys prest pj (min (min (pj + 1) (dprev + 1)) (pdiag + (if x = y then 0 else 2)))
  | _, _, _, _ => []

/-- One full row update of the distance table for character `x`. -/
def levStep (x : Char) (ys : List Char) (prev : List ℕ) : List ℕ :=
  match prev with
  | [] => []
  | p0 :: prest => (p0 + 1) :: levRow x ys prest p0 (p0 + 1)

/-- Edit distance with substitution cost 2 (insert/delete cost 1) between two
character lists, by dynamic programming. -/
def dist2 (xs ys : List Char) : ℕ :=
  (xs.foldl (fun prev x => levStep x ys prev) (List.range (ys.length + 1))).getLastD 0

/-- Modelled from the spec: `fuzz.ratio` of the external fuzzywuzzy library
(only its callers are in the repository).  Per the spec it is "a 0–100
normalized measure of string closeness (e.g., based on edit distance)"; this
follows the python-Levenshtein implementation fuzzywuzzy wraps:
`round(100 * (lensum - dist) / lensum)` with `dist` the substitution-cost-2
edit distance, and 100 for two empty strings. -/
def fuzzRatio (a b : String) : ℕ :=
  if a.toList.length + b.toList.length = 0 then 100
  else
    (round ((100 * (((a.toList.length + b.toList.length : ℕ) : ℚ) - dist2 a.toList b.toList))
      / ((a.toList.length + b.toList.length : ℕ) : ℚ))).toNat

/-- `DuplicateMaterialDetector.detect_duplicates`, loop form: `seen` is the
key list of the (insertion-ordered) Python dict, `dups` the accumulator.  For
each entry, every previously seen distinct name scoring strictly above 90 is
appended as a pair before the name itself is recorded. -/
def detectDupGo (score : String → String → ℕ) :
    List MaterialEntry → List String → List (String × String) → List (String × String)
  | [], _, dups => dups
  | mat :: rest, seen, dups =>
    detectDupGo score rest
      (if mat.material ∈ seen then seen else seen ++ [mat.material])
      (dups ++ (seen.filter (fun s => 90 < score mat.material s)).map (fun s => (mat.material, s)))

/-- `DuplicateMaterialDetector.detect_duplicates`, parametrized by the
similarity scorer (the source uses `fuzz.ratio`, modelled by `fuzzRatio`). -/
def detect_duplicates (score : String → String → ℕ) (material_list : List MaterialEntry) :
    List (String × String) :=
  detectDupGo score material_list [] []

/-- The material alternation `(Timber|Flooring|Tile|Concrete|Steel)`
(case-insensitive), alternatives tried in source order; returns the matched
text in its original case. -/
def matchVocab (cs : List Char) : Option (List Char × List Char) :=
  match ciMatch "Timber".toList cs with
  | some p => some p
  | none =>
  match ciMatch "Flooring".toList cs with
  | some p => some p
  | none =>
  match ciMatch "Tile".toList cs with
  | some p => some p
  | none =>
  match ciMatch "Concrete".toList cs with
  | some p => some p
  | none => ciMatch "Steel".toList cs

/-- Python regex class `\w` (ASCII part): letters, digits and underscore. -/
def isWordCh (c : Char) : Bool := c.isAlphanum || c = '_'

/-- The optional thickness group `(\d+mm|\d+cm)?` under `re.IGNORECASE`:
greedy digits then `mm` or `cm`; the group is skipped (empty capture) when
neither alternative completes. -/
def thicknessAt (cs : List Char) : List Char × List Char :=
  if (cs.takeWhile Char.isDigit).isEmpty then ([], cs)
  else
    match cs.dropWhile Char.isDigit with
    | c1 :: c2 :: r =>
      if (c1.toLower = 'm' ∧ c2.toLower = 'm') ∨ (c1.toLower = 'c' ∧ c2.toLower = 'm') then
        (cs.takeWhile Char.isDigit ++ [c1, c2], r)
      else ([], cs)
    | _ => ([], cs)

/-- One attempt of the material pattern
`(Timber|Flooring|Tile|Concrete|Steel)\s*(\w+)?\s*(\d+mm|\d+cm)?`
(case-insensitive) anchored at the head of `cs`: the vocabulary literal, then
greedy whitespace, an optional word (the `type` group), greedy whitespace and
the optional thickness group.  Every part after the literal is optional, so
the greedy pass always yields the regex result. -/
def matchMaterialAt (cs : List Char) : Option (MaterialEntry × List Char) :=
  match matchVocab cs with
  | none => none
  | some (mchars, r1) =>
    some ({ material := String.mk mchars,
            mtype := String.mk ((r1.dropWhile isSpaceCh).takeWhile isWordCh),
            thickness := String.mk
              (thicknessAt (((r1.dropWhile isSpaceCh).dropWhile isWordCh).dropWhile isSpaceCh)).1 },
          (thicknessAt (((r1.dropWhile isSpaceCh).dropWhile isWordCh).dropWhile isSpaceCh)).2)

theorem ciMatch_length : ∀ (pat cs m r : List Char),
    ciMatch pat cs = some (m, r) → cs.length = pat.length + r.length := by
  intro pat
  induction pat with
  | nil => intro cs m r h; simp [ciMatch] at h; simp [h]
  | cons p ps ih =>
    intro cs m r h
    match cs with
    | [] => simp [ciMatch] at h
    | c :: cs' =>
      rw [ciMatch] at h
      split at h
      · split at h
        · rename_i m' r' hrec
          have := ih cs' m' r' hrec
          simp_all
          omega
        · exact absurd h (by simp)
      · exact absurd h (by simp)

theorem thicknessAt_length_le (cs : List Char) : (thicknessAt cs).2.length ≤ cs.length := by
  rw [thicknessAt]
  split
  · simp
  · split
    · rename_i heq
      split
      · have h1 := (List.dropWhile_sublist (l := cs) Char.isDigit).length_le
        rw [heq] at h1
        simp only [List.length_cons] at h1
        simp
        omega
      · simp
    · simp

theorem matchMaterialAt_length_lt {cs : List Char} {e : MaterialEntry} {rest : List Char}
    (h : matchMaterialAt cs = some (e, rest)) : rest.length < cs.length := by
  rw [matchMaterialAt] at h
  split at h
  · exact absurd h (by simp)
  · rename_i mchars r1 hv
    have hrest : rest = (thicknessAt (((r1.dropWhile isSpaceCh).dropWhile isWordCh).dropWhile isSpaceCh)).2 := by
      simp_all
    subst hrest
    have h2 : r1.length < cs.length := by
      rw [matchVocab] at hv
      split at hv
      · rename_i hm
        have := ciMatch_length _ _ _ _ hm
        simp_all
      · split at hv
        · rename_i hm
          have := ciMatch_length _ _ _ _ hm
          simp_all
        · split at hv
          · rename_i hm
            have := ciMatch_length _ _ _ _ hm
            simp_all
          · split at hv
            · rename_i hm
              have := ciMatch_length _ _ _ _ hm
              simp_all
            · have := ciMatch_length _ _ _ _ hv
              simp_all
    have h3 := (List.dropWhile_sublist (l := r1) isSpaceCh).length_le
    have h4 := (List.dropWhile_sublist (l := r1.dropWhile isSpaceCh) isWordCh).length_le
    have h5 := (List.dropWhile_sublist (l := (r1.dropWhile isSpaceCh).dropWhile isWordCh) isSpaceCh).length_le
    have h6 := thicknessAt_length_le (((r1.dropWhile isSpaceCh).dropWhile isWordCh).dropWhile isSpaceCh)
    omega

/-- `re.findall` for the material pattern: try a match at each position,
resume after every match, advance one character on failure; structural
recursion on a fuel bound exactly as in `scanMeasurementsF`, sufficient by
`matchMaterialAt_length_lt`. -/
def scanMaterialsF : ℕ → List Char → List MaterialEntry
  | 0, _ => []
  | _, [] => []
  | fuel + 1, c :: cs' =>
    match matchMaterialAt (c :: cs') with
    | some (e, rest) => e :: scanMaterialsF fuel rest
    | none => scanMaterialsF fuel cs'

theorem scanMaterialsF_fuel : ∀ (fuel : ℕ) (cs : List Char), cs.length ≤ fuel →
    scanMaterialsF fuel cs = scanMaterialsF cs.length cs := by
  intro fuel
  induction fuel using Nat.strong_induction_on with
  | _ fuel ih =>
    intro cs hcs
    match fuel, cs with
    | 0, cs =>
      have hl : cs.length = 0 := Nat.le_zero.mp hcs
      rw [List.length_eq_zero] at hl
      subst hl
      rfl
    | fuel + 1, [] => rfl
    | fuel + 1, c :: cs' =>
      rw [scanMaterialsF]
      simp only [List.length_cons]
      rw [scanMaterialsF]
      split
      · rename_i e rest h
        have hlt := matchMaterialAt_length_lt h
        simp only [List.length_cons] at hlt hcs
        rw [ih fuel (by omega) rest (by omega), ih cs'.length (by omega) rest (by omega)]
      · have : cs'.length ≤ fuel := by
          simp only [List.length_cons] at hcs
          omega
        rw [ih fuel (by omega) cs' this, ih cs'.length (by omega) cs' (by omega)]

/-- `MaterialAnalyzer.extract_materials`: the findall scan over the raw text
(`re.IGNORECASE` is in the pattern, so the text is not lowered first). -/
def extract_materials (text : List Char) : List MaterialEntry :=
  scanMaterialsF text.length text

/-- Python `filename.split('.')` for the single-character separator `'.'`:
the empty string splits to one empty group, and every dot starts a new group. -/
def splitDot : List Char → List (List Char)
  | [] => [[]]
  | c :: cs =>
    if c = '.' then [] :: splitDot cs
    else
      match splitDot cs with
      | [] => [[c]]
      | g :: gs => (c :: g) :: gs

/-- `filename.split('.')[-1]`: the text after the last dot (the whole name
when there is no dot). -/
def extOf (filename : List Char) : List Char := (splitDot filename).getLastD []

/-- The three extraction paths of `FixItAllAgent.process`
(`read_pdf` / `read_image` / `read_dwg`). -/
inductive Route where
  | pdf
  | image
  | dwg
deriving DecidableEq

/-- The extension dispatch of `FixItAllAgent.process`: `'pdf'`, one of
`['png', 'jpg', 'jpeg']`, `'dwg'`, otherwise no route (the `ValueError`
branch).  Each test lower-cases the extension, as `ext.lower()` does. -/
def routeOf (filename : List Char) : Option Route :=
  if strLower (extOf filename) = "pdf".toList then some .pdf
  else if strLower (extOf filename) = "png".toList ∨ strLower (extOf filename) = "jpg".toList
      ∨ strLower (extOf filename) = "jpeg".toList then some .image
  else if strLower (extOf filename) = "dwg".toList then some .dwg
  else none

/-- The report dict `FixItAllAgent.process` assembles. -/
structure Report where
  scale : Option ℕ
  measurements : List (ℚ × String)
  compliance_issues : List Issue
  materials : List MaterialEntry
  boq : List BOQLine
  duplicate_materials : List (String × String)
  missing_info : List String
deriving DecidableEq

/-- The text-analysis half of `FixItAllAgent.process`: every stage run on the
extracted text and collected into the report record. -/
def buildReport (text : List Char) : Report :=
  { scale := extract_scale text,
    measurements := extract_measurements text,
    compliance_issues := check_compliance (extract_measurements text),
    materials := extract_materials text,
    boq := generate_boq (extract_measurements text) (extract_materials text),
    duplicate_materials := detect_duplicates fuzzRatio (extract_materials text),
    missing_info := detect_missing_info text }

/-- `FixItAllAgent.process`: route on the extension, read text through the
chosen extractor (`readText` stands for the three external readers), then
analyze; an unrecognized extension raises `ValueError("Unsupported file
type")` before any extractor call, modelled by the error result that is
independent of `readText`. -/
def process (readText : Route → List Char) (filename : List Char) : Except String Report :=
  match routeOf filename with
  | none => .error "Unsupported file type"
  | some r => .ok (buildReport (readText r))

theorem toLower_of_isDigit {c : Char} (h : c.isDigit = true) : c.toLower = c := by
  simp only [Char.isDigit, decide_eq_true_eq, Bool.and_eq_true] at h
  obtain ⟨h1, h2⟩ := h
  have h2' : c.val.toNat ≤ 57 := h2
  have hn : c.toNat = c.val.toNat := rfl
  simp only [Char.toLower]
  rw [if_neg]
  intro hc
  omega

theorem takeWhile_append_of {p : Char → Bool} :
    ∀ (l r : List Char), (∀ c ∈ l, p c = true) → (∀ x ∈ r.head?, p x = false) →
      (l ++ r).takeWhile p = l := by
  intro l
  induction l with
  | nil =>
    intro r _ hr
    match r with
    | [] => rfl
    | x :: r' =>
      have := hr x (by simp)
      simp [List.takeWhile_cons, this]
  | cons c l ih =>
    intro r hl hr
    have hc := hl c (by simp)
    simp only [List.cons_append, List.takeWhile_cons, hc, if_true, List.cons.injEq, true_and]
    exact ih r (fun d hd => hl d (by simp [hd])) hr

theorem dropWhile_append_of {p : Char → Bool} :
    ∀ (l r : List Char), (∀ c ∈ l, p c = true) → (∀ x ∈ r.head?, p x = false) →
      (l ++ r).dropWhile p = r := by
  intro l
  induction l with
  | nil =>
    intro r _ hr
    match r with
    | [] => rfl
    | x :: r' =>
      have := hr x (by simp)
      simp [List.dropWhile_cons, this]
  | cons c l ih =>
    intro r hl hr
    have hc := hl c (by simp)
    simp only [List.cons_append, List.dropWhile_cons, hc, if_true]
    exact ih r (fun d hd => hl d (by simp [hd])) hr

/-- Claim C1: for every measurement list the compliance checker normalizes
each value to meters (/1000 for mm, /100 for cm, unchanged for m) and, per
measurement independently, emits exactly one issue per threshold the
normalized value is strictly below, against 2.3, 0.9 and 0.762; concretely
(2500, "mm") normalizes to 2.5 and yields no issue, (500, "mm") normalizes to
0.5 and yields all three. -/
theorem claim_C1 :
    (∀ v : ℚ, normalizeUnit v "mm" = v / 1000 ∧ normalizeUnit v "cm" = v / 100 ∧
        normalizeUnit v "m" = v) ∧
    (∀ ms : List (ℚ × String),
        check_compliance ms = ms.flatMap (fun m => singleIssues (normalizeUnit m.1 m.2))) ∧
    (∀ v : ℚ,
        (Issue.ceiling v ∈ singleIssues v ↔ v < MIN_CEILING_HEIGHT) ∧
        (Issue.corridor v ∈ singleIssues v ↔ v < MIN_CORRIDOR_WIDTH) ∧
        (Issue.door v ∈ singleIssues v ↔ v < MIN_DOOR_WIDTH) ∧
        (singleIssues v).length = (if v < MIN_CEILING_HEIGHT then 1 else 0) +
          ((if v < MIN_CORRIDOR_WIDTH then 1 else 0) +
            (if v < MIN_DOOR_WIDTH then 1 else 0))) ∧
    (normalizeUnit 2500 "mm" = 5 / 2 ∧ check_compliance [(2500, "mm")] = []) ∧
    (normalizeUnit 500 "mm" = 1 / 2 ∧
      check_compliance [(500, "mm")]
        = [Issue.ceiling (1 / 2), Issue.corridor (1 / 2), Issue.door (1 / 2)]) := by
  refine ⟨?_, ?_, ?_, ⟨?_, ?_⟩, ⟨?_, ?_⟩⟩
  · intro v
    refine ⟨?_, ?_, ?_⟩ <;> simp +decide [normalizeUnit]
  · intro ms
    simpa [check_compliance] using check_compliance_foldl ms []
  · intro v
    by_cases h1 : v < MIN_CEILING_HEIGHT <;> by_cases h2 : v < MIN_CORRIDOR_WIDTH <;>
      by_cases h3 : v < MIN_DOOR_WIDTH <;> simp [singleIssues, h1, h2, h3]
  · norm_num [normalizeUnit]
  · norm_num [check_compliance, complianceStep, normalizeUnit,
      MIN_CEILING_HEIGHT, MIN_CORRIDOR_WIDTH, MIN_DOOR_WIDTH]
  · norm_num [normalizeUnit]
  · norm_num [check_compliance, complianceStep, normalizeUnit,
      MIN_CEILING_HEIGHT, MIN_CORRIDOR_WIDTH, MIN_DOOR_WIDTH]

def fracText : Option (List Char) → List Char
  | none => []
  | some fs => '.' :: fs

theorem strLower_eq_self {l : List Char} (h : ∀ c ∈ l, c.toLower = c) : strLower l = l := by
  unfold strLower
  induction l with
  | nil => rfl
  | cons c l ih =>
    simp only [List.map_cons, h c (by simp), List.cons.injEq, true_and]
    exact ih (fun d hd => h d (by simp [hd]))

theorem toLower_of_isSpace {c : Char} (h : isSpaceCh c = true) : c.toLower = c := by
  simp only [isSpaceCh, Bool.or_eq_true, decide_eq_true_eq] at h
  rcases h with ((((h | h) | h) | h) | h) | h <;> subst h <;> rfl

theorem isDigit_false_of_isSpace {c : Char} (h : isSpaceCh c = true) : c.isDigit = false := by
  simp only [isSpaceCh, Bool.or_eq_true, decide_eq_true_eq] at h
  rcases h with ((((h | h) | h) | h) | h) | h <;> subst h <;> rfl

theorem ne_dot_of_isSpace {c : Char} (h : isSpaceCh c = true) : c ≠ '.' := by
  simp only [isSpaceCh, Bool.or_eq_true, decide_eq_true_eq] at h
  rcases h with ((((h | h) | h) | h) | h) | h <;> subst h <;> decide

theorem fracAt_cons_ne_dot {c : Char} {r : List Char} (h : c ≠ '.') :
    fracAt (c :: r) = (none, c :: r) := by
  unfold fracAt
  split
  · rename_i heq
    simp at heq
    exact absurd heq.1 h
  · rfl

theorem scanMeasurementsF_nil (k : ℕ) : scanMeasurementsF k [] = [] := by
  cases k <;> rfl

theorem unitAt_ne_nil {utoks : List Char} {u : String} {r : List Char}
    (h : unitAt utoks = some (u, r)) : utoks ≠ [] := by
  intro heq
  subst heq
  simp [unitAt] at h

theorem matchAt_token (ip : List Char) (fp : Option (List Char)) (sps utoks : List Char)
    (u : String)
    (hip : ip ≠ []) (hd : ∀ c ∈ ip, c.isDigit = true)
    (hfp : ∀ fs ∈ fp, fs ≠ [] ∧ ∀ c ∈ fs, c.isDigit = true)
    (hsp : ∀ c ∈ sps, isSpaceCh c = true)
    (hu : unitAt utoks = some (u, []))
    (husp : ∀ x ∈ utoks.head?, isSpaceCh x = false)
    (hud : ∀ x ∈ utoks.head?, Char.isDigit x = false)
    (hnd : ∀ x ∈ utoks.head?, x ≠ '.') :
    matchAt (ip ++ (fracText fp ++ (sps ++ utoks))) = some ((numVal ip fp, u), []) := by
  have hR2 : ∀ x ∈ (sps ++ utoks).head?, Char.isDigit x = false := by
    match sps with
    | [] => exact hud
    | s :: sps' =>
      intro x hx
      simp at hx
      subst hx
      exact isDigit_false_of_isSpace (hsp s (by simp))
  have hR : ∀ x ∈ (fracText fp ++ (sps ++ utoks)).head?, Char.isDigit x = false := by
    match fp with
    | none => simpa [fracText] using hR2
    | some fs =>
      intro x hx
      simp [fracText] at hx
      subst hx
      decide
  have htake : (ip ++ (fracText fp ++ (sps ++ utoks))).takeWhile Char.isDigit = ip :=
    takeWhile_append_of ip _ hd hR
  have hdrop : (ip ++ (fracText fp ++ (sps ++ utoks))).dropWhile Char.isDigit
      = fracText fp ++ (sps ++ utoks) :=
    dropWhile_append_of ip _ hd hR
  have hfrac : fracAt (fracText fp ++ (sps ++ utoks)) = (fp, sps ++ utoks) := by
    match fp with
    | none =>
      simp only [fracText, List.nil_append]
      match sps with
      | [] =>
        match utoks, unitAt_ne_nil hu with
        | x :: utoks', _ =>
          simp only [List.nil_append]
          exact fracAt_cons_ne_dot (hnd x (by simp))
      | s :: sps' =>
        exact fracAt_cons_ne_dot (ne_dot_of_isSpace (hsp s (by simp)))
    | some fs =>
      obtain ⟨hfs, hfsd⟩ := hfp fs rfl
      simp only [fracText, List.cons_append]
      have ht2 : (fs ++ (sps ++ utoks)).takeWhile Char.isDigit = fs :=
        takeWhile_append_of fs _ hfsd hR2
      have hd2 : (fs ++ (sps ++ utoks)).dropWhile Char.isDigit = sps ++ utoks :=
        dropWhile_append_of fs _ hfsd hR2
      unfold fracAt
      split
      · rename_i heq
        simp only [List.cons.injEq] at heq
        rw [← heq.2, ht2, hd2]
        have : fs.isEmpty = false := by simpa [List.isEmpty_iff] using hfs
        simp [this]
      · rename_i hne
        exact absurd (hne (fs ++ (sps ++ utoks)) rfl) not_false
  have hspd : (sps ++ utoks).dropWhile isSpaceCh = utoks :=
    dropWhile_append_of sps utoks hsp husp
  have hemp : ip.isEmpty = false := by simpa [List.isEmpty_iff] using hip
  rw [matchAt]
  rw [htake, hdrop, hfrac, hemp]
  simp only [Bool.false_eq_true, if_false, hspd, hu]

theorem extract_token (ip : List Char) (fp : Option (List Char)) (sps utoks : List Char)
    (u : String)
    (hip : ip ≠ []) (hd : ∀ c ∈ ip, c.isDigit = true)
    (hfp : ∀ fs ∈ fp, fs ≠ [] ∧ ∀ c ∈ fs, c.isDigit = true)
    (hsp : ∀ c ∈ sps, isSpaceCh c = true)
    (hu : unitAt utoks = some (u, []))
    (husp : ∀ x ∈ utoks.head?, isSpaceCh x = false)
    (hud : ∀ x ∈ utoks.head?, Char.isDigit x = false)
    (hnd : ∀ x ∈ utoks.head?, x ≠ '.')
    (hul : ∀ c ∈ utoks, c.toLower = c) :
    extract_measurements (ip ++ (fracText fp ++ (sps ++ utoks))) = [(numVal ip fp, u)] := by
  have hlow : strLower (ip ++ (fracText fp ++ (sps ++ utoks)))
      = ip ++ (fracText fp ++ (sps ++ utoks)) := by
    apply strLower_eq_self
    intro c hc
    simp only [List.mem_append] at hc
    rcases hc with hc | hc | hc | hc
    · exact toLower_of_isDigit (hd c hc)
    · match fp, hc with
      | some fs, hc =>
        simp only [fracText, List.mem_cons] at hc
        rcases hc with hc | hc
        · subst hc; rfl
        · exact toLower_of_isDigit ((hfp fs rfl).2 c hc)
    · exact toLower_of_isSpace (hsp c hc)
    · exact hul c hc
  unfold extract_measurements
  rw [hlow]
  match ip, hip with
  | a :: ip', _ =>
    have hm := matchAt_token (a :: ip') fp sps utoks u (by simp) hd hfp hsp hu husp hud hnd
    rw [List.cons_append] at hm
    simp only [List.cons_append, List.length_cons]
    rw [scanMeasurementsF]
    rw [hm]
    simp [scanMeasurementsF_nil]

/-- Claim C2: for every text that is exactly a decimal number, a space and one
of the unit tokens mm/cm/m, the parser extracts exactly one (value, unit) pair
with the literal unit and the exact numeric value of the literal; and on a
larger text it returns the ordered list of all matches. -/
theorem claim_C2 :
    (∀ (ip : List Char) (fp : Option (List Char)) (u : String),
        ip ≠ [] → (∀ c ∈ ip, c.isDigit = true) →
        (∀ fs ∈ fp, fs ≠ [] ∧ ∀ c ∈ fs, c.isDigit = true) →
        u ∈ (["mm", "cm", "m"] : List String) →
        extract_measurements (ip ++ (fracText fp ++ (' ' :: u.toList)))
          = [(numVal ip fp, u)]) ∧
    extract_measurements "room 2500 mm by 3.5 m".toList = [(2500, "mm"), (7 / 2, "m")] := by
  constructor
  · intro ip fp u hip hd hfp hu
    have hsingle : ' ' :: u.toList = [' '] ++ u.toList := rfl
    rw [hsingle]
    simp only [List.mem_cons, List.mem_singleton, List.not_mem_nil, or_false] at hu
    rcases hu with rfl | rfl | rfl <;>
      exact extract_token ip fp [' '] _ _ hip hd hfp (by decide) (by rfl) (by decide)
        (by decide) (by decide) (by decide)
  · have h1 : extract_measurements "room 2500 mm by 3.5 m".toList
        = [(numVal ['2','5','0','0'] none, "mm"), (numVal ['3'] (some ['5']), "m")] := rfl
    have h2 : natOfDigits ['2','5','0','0'] = 2500 := by decide
    have h3 : natOfDigits ['3'] = 3 := by decide
    have h4 : natOfDigits ['5'] = 5 := by decide
    rw [h1]
    norm_num [numVal, h2, h3, h4]

theorem claim_C2_witness :
    (['5'] : List Char) ≠ [] ∧
    extract_measurements (['5'] ++ (fracText none ++ (' ' :: "m".toList)))
      = [(numVal ['5'] none, "m")] :=
  ⟨by decide,
    claim_C2.1 ['5'] none "m" (by decide) (by decide) (by simp) (by decide)⟩

/-- Claim C3 counterexample: the digit run "500" immediately followed by "mm"
with no intervening whitespace IS extracted as a measurement (the pattern uses
`\s*`, zero or more whitespace characters), contradicting the claim that a
space is required before the unit. -/
theorem claim_C3_counterexample :
    extract_measurements "500mm".toList ≠ [] ∧
    extract_measurements "500mm".toList = [(500, "mm")] := by
  have h1 : extract_measurements "500mm".toList = [(numVal ['5','0','0'] none, "mm")] := rfl
  have h2 : natOfDigits ['5','0','0'] = 500 := by decide
  have h3 : extract_measurements "500mm".toList = [(500, "mm")] := by
    rw [h1]
    norm_num [numVal, h2]
  exact ⟨by rw [h3]; simp, h3⟩

/-- Claim C3 (amended): the measurement pattern allows optional whitespace
(zero or more characters of `\s`) between the number and the unit token; where
unit tokens overlap the longer token is preferred, so a digit run followed —
with or without whitespace — by "mm" or "cm" is extracted with that two-letter
unit and never with unit "m". -/
theorem claim_C3_amended :
    ∀ (ip sps : List Char) (u : String),
      ip ≠ [] → (∀ c ∈ ip, c.isDigit = true) → (∀ c ∈ sps, isSpaceCh c = true) →
      u ∈ (["mm", "cm"] : List String) →
      extract_measurements (ip ++ (sps ++ u.toList)) = [(numVal ip none, u)] ∧ u ≠ "m" := by
  intro ip sps u hip hd hsp hu
  have hkey : extract_measurements (ip ++ (fracText none ++ (sps ++ u.toList)))
      = [(numVal ip none, u)] := by
    simp only [List.mem_cons, List.mem_singleton, List.not_mem_nil, or_false] at hu
    rcases hu with rfl | rfl <;>
      exact extract_token ip none sps _ _ hip hd (by simp) hsp (by rfl) (by decide)
        (by decide) (by decide) (by decide)
  simp only [fracText, List.nil_append] at hkey
  refine ⟨hkey, ?_⟩
  simp only [List.mem_cons, List.mem_singleton, List.not_mem_nil, or_false] at hu
  rcases hu with rfl | rfl <;> decide

theorem claim_C3_witness :
    (['5', '0', '0'] : List Char) ≠ [] ∧
    extract_measurements (['5', '0', '0'] ++ ([] ++ "mm".toList))
      = [(numVal ['5', '0', '0'] none, "mm")] ∧ ("mm" : String) ≠ "m" :=
  ⟨by decide,
    (claim_C3_amended ['5', '0', '0'] [] "mm" (by decide) (by decide) (by simp)
      (by decide)).1,
    (claim_C3_amended ['5', '0', '0'] [] "mm" (by decide) (by decide) (by simp)
      (by decide)).2⟩

theorem foldl_append_singleton {α β : Type} (f : α → β) :
    ∀ (l : List α) (acc : List β),
      l.foldl (fun acc x => acc ++ [f x]) acc = acc ++ l.map f := by
  intro l
  induction l with
  | nil => simp
  | cons x l ih =>
    intro acc
    simp only [List.foldl_cons, List.map_cons, ih, List.append_assoc, List.singleton_append]

/-- Claim C4: the quantity estimator emits, per measurement and in order, one
BOQ line whose quantity is the normalized value squared and rounded to two
decimals, with the constant placeholder material; (2, "m") yields quantity
4.00, and there is exactly one line per measurement. -/
theorem claim_C4 :
    (∀ (ms : List (ℚ × String)) (mats : List MaterialEntry),
        generate_boq ms mats = ms.map (fun m =>
          { material := "Generic Material",
            quantity_m2 := roundTo2 (normalizeUnit m.1 m.2 * normalizeUnit m.1 m.2) })) ∧
    (∀ (ms : List (ℚ × String)) (mats : List MaterialEntry),
        (generate_boq ms mats).length = ms.length) ∧
    (∀ mats : List MaterialEntry,
        generate_boq [(2, "m")] mats
          = [{ material := "Generic Material", quantity_m2 := 4 }]) := by
  have hmap : ∀ (ms : List (ℚ × String)) (mats : List MaterialEntry),
      generate_boq ms mats = ms.map (fun m =>
        { material := "Generic Material",
          quantity_m2 := roundTo2 (normalizeUnit m.1 m.2 * normalizeUnit m.1 m.2) }) := by
    intro ms mats
    unfold generate_boq
    simpa using foldl_append_singleton
      (fun m : ℚ × String =>
        ({ material := "Generic Material",
           quantity_m2 := roundTo2 (normalizeUnit m.1 m.2 * normalizeUnit m.1 m.2) } : BOQLine))
      ms []
  refine ⟨hmap, ?_, ?_⟩
  · intro ms mats
    simp [hmap]
  · intro mats
    rw [hmap]
    simp only [List.map_cons, List.map_nil]
    have : roundTo2 (normalizeUnit 2 "m" * normalizeUnit 2 "m") = 4 := by
      simp +decide only [normalizeUnit, roundTo2]
      norm_num [round_eq]
    rw [this]

/-- Claim C10: the three thresholds are nested, so a single measurement's
issue list is one of exactly four values determined by its normalized value,
and a door-width issue never occurs without both a corridor-width and a
ceiling-height issue for the same measurement. -/
theorem claim_C10 :
    ∀ (v : ℚ) (u : String),
      (MIN_CEILING_HEIGHT ≤ normalizeUnit v u → check_compliance [(v, u)] = []) ∧
      (MIN_CORRIDOR_WIDTH ≤ normalizeUnit v u → normalizeUnit v u < MIN_CEILING_HEIGHT →
        check_compliance [(v, u)] = [Issue.ceiling (normalizeUnit v u)]) ∧
      (MIN_DOOR_WIDTH ≤ normalizeUnit v u → normalizeUnit v u < MIN_CORRIDOR_WIDTH →
        check_compliance [(v, u)]
          = [Issue.ceiling (normalizeUnit v u), Issue.corridor (normalizeUnit v u)]) ∧
      (normalizeUnit v u < MIN_DOOR_WIDTH →
        check_compliance [(v, u)]
          = [Issue.ceiling (normalizeUnit v u), Issue.corridor (normalizeUnit v u),
              Issue.door (normalizeUnit v u)]) ∧
      (Issue.door (normalizeUnit v u) ∈ check_compliance [(v, u)] →
        Issue.corridor (normalizeUnit v u) ∈ check_compliance [(v, u)] ∧
          Issue.ceiling (normalizeUnit v u) ∈ check_compliance [(v, u)]) := by
  intro v u
  have hone : check_compliance [(v, u)] = singleIssues (normalizeUnit v u) := by
    simpa [check_compliance] using check_compliance_foldl [(v, u)] []
  have hdc : MIN_DOOR_WIDTH < MIN_CORRIDOR_WIDTH := by
    norm_num [MIN_DOOR_WIDTH, MIN_CORRIDOR_WIDTH]
  have hcc : MIN_CORRIDOR_WIDTH < MIN_CEILING_HEIGHT := by
    norm_num [MIN_CORRIDOR_WIDTH, MIN_CEILING_HEIGHT]
  rw [hone]
  refine ⟨?_, ?_, ?_, ?_, ?_⟩
  · intro h
    simp [singleIssues, not_lt_of_ge h, not_lt_of_ge (le_trans (le_of_lt hcc) h),
      not_lt_of_ge (le_trans (le_of_lt (lt_trans hdc hcc)) h)]
  · intro h1 h2
    simp [singleIssues, h2, not_lt_of_ge h1, not_lt_of_ge (le_trans (le_of_lt hdc) h1)]
  · intro h1 h2
    simp [singleIssues, lt_trans h2 hcc, h2, not_lt_of_ge h1]
  · intro h
    simp [singleIssues, h, lt_trans h hdc, lt_trans (lt_trans h hdc) hcc]
  · intro hdoor
    by_cases h3 : normalizeUnit v u < MIN_DOOR_WIDTH
    · simp [singleIssues, h3, lt_trans h3 hdc, lt_trans (lt_trans h3 hdc) hcc]
    · exfalso
      simp [singleIssues, h3] at hdoor

theorem claim_C10_witness :
    check_compliance [(500, "mm")]
      = [Issue.ceiling (normalizeUnit 500 "mm"), Issue.corridor (normalizeUnit 500 "mm"),
          Issue.door (normalizeUnit 500 "mm")] :=
  (claim_C10 500 "mm").2.2.2.1 (by norm_num [normalizeUnit, MIN_DOOR_WIDTH])

/-- The distinct names recorded by the duplicate-detector loop after a list of
entries, in first-appearance order (the Python dict key order). -/
def seenNames (mats : List MaterialEntry) : List String :=
  mats.foldl (fun s m => if m.material ∈ s then s else s ++ [m.material]) []

/-- The pairs one entry name produces against the names already seen: every
prior distinct name scoring strictly above 90, in seen order. -/
def pairsFor (score : String → String → ℕ) (seen : List String) (n : String) :
    List (String × String) :=
  (seen.filter (fun s => 90 < score n s)).map (fun s => (n, s))

theorem detectDupGo_append (score : String → String → ℕ) :
    ∀ (mats : List MaterialEntry) (seen : List String)
      (d1 d2 : List (String × String)),
      detectDupGo score mats seen (d1 ++ d2) = d1 ++ detectDupGo score mats seen d2 := by
  intro mats
  induction mats with
  | nil => intro seen d1 d2; simp [detectDupGo]
  | cons m rest ih =>
    intro seen d1 d2
    rw [detectDupGo, detectDupGo, List.append_assoc]
    exact ih _ d1 _

theorem detectDupGo_acc (score : String → String → ℕ)
    (mats : List MaterialEntry) (seen : List String) (dups : List (String × String)) :
    detectDupGo score mats seen dups = dups ++ detectDupGo score mats seen [] := by
  calc detectDupGo score mats seen dups
      = detectDupGo score mats seen (dups ++ []) := by rw [List.append_nil]
    _ = dups ++ detectDupGo score mats seen [] := detectDupGo_append score mats seen dups []

theorem detectDupGo_snoc (score : String → String → ℕ) :
    ∀ (mats : List MaterialEntry) (mat : MaterialEntry) (seen : List String),
      detectDupGo score (mats ++ [mat]) seen []
        = detectDupGo score mats seen []
            ++ pairsFor score
                (mats.foldl (fun s m => if m.material ∈ s then s else s ++ [m.material]) seen)
                mat.material := by
  intro mats
  induction mats with
  | nil =>
    intro mat seen
    simp only [List.nil_append, List.foldl_nil, detectDupGo, pairsFor]
  | cons m rest ih =>
    intro mat seen
    simp only [List.cons_append, List.foldl_cons, detectDupGo, List.append_eq]
    rw [detectDupGo_acc score (rest ++ [mat]), ih mat]
    conv_rhs => rw [detectDupGo_acc score rest]
    simp [List.append_assoc]

/-- Claim C5: the duplicate detector processes names in list order, comparing
each name against every previously seen distinct name before recording it, and
emits a pair exactly for the prior names whose similarity score exceeds 90;
two "Timber" entries produce a flagged pair, "Timber" then "Concrete" does
not. -/
theorem claim_C5 :
    (∀ (score : String → String → ℕ) (mats : List MaterialEntry) (mat : MaterialEntry),
        detect_duplicates score (mats ++ [mat])
          = detect_duplicates score mats ++ pairsFor score (seenNames mats) mat.material) ∧
    (∀ (score : String → String → ℕ) (seen : List String) (n : String)
        (p : String × String),
        p ∈ pairsFor score seen n ↔ p.1 = n ∧ p.2 ∈ seen ∧ 90 < score n p.2) ∧
    fuzzRatio "Timber" "Timber" = 100 ∧
    fuzzRatio "Concrete" "Timber" = 14 ∧
    detect_duplicates fuzzRatio
        [{ material := "Timber", mtype := "", thickness := "" },
         { material := "Timber", mtype := "", thickness := "" }]
      = [("Timber", "Timber")] ∧
    detect_duplicates fuzzRatio
        [{ material := "Timber", mtype := "", thickness := "" },
         { material := "Concrete", mtype := "", thickness := "" }]
      = [] := by
  have hTT : fuzzRatio "Timber" "Timber" = 100 := by
    have h : dist2 ['T','i','m','b','e','r'] ['T','i','m','b','e','r'] = 0 := by decide
    norm_num [fuzzRatio, h, round_eq]
    decide
  have hCT : fuzzRatio "Concrete" "Timber" = 14 := by
    have h : dist2 ['C','o','n','c','r','e','t','e'] ['T','i','m','b','e','r'] = 12 := by decide
    norm_num [fuzzRatio, h, round_eq]
    decide
  refine ⟨?_, ?_, hTT, hCT, ?_, ?_⟩
  · intro score mats mat
    unfold detect_duplicates seenNames
    exact detectDupGo_snoc score mats mat []
  · intro score seen n p
    constructor
    · intro hp
      simp only [pairsFor, List.mem_map, List.mem_filter, decide_eq_true_eq] at hp
      obtain ⟨s, ⟨hs, hsc⟩, rfl⟩ := hp
      exact ⟨rfl, hs, hsc⟩
    · intro ⟨h1, h2, h3⟩
      simp only [pairsFor, List.mem_map, List.mem_filter, decide_eq_true_eq]
      exact ⟨p.2, ⟨h2, h3⟩, by rw [← h1]⟩
  · simp +decide [detect_duplicates, detectDupGo, hTT]
  · simp +decide [detect_duplicates, detectDupGo, hCT]

theorem hasSub_iff (n h : List Char) : hasSub n h = true ↔ n <:+: h := by
  simp only [hasSub, List.any_eq_true, List.mem_tails, List.isPrefixOf_iff_prefix,
    List.infix_iff_prefix_suffix]
  constructor
  · rintro ⟨t, h1, h2⟩
    exact ⟨t, h2, h1⟩
  · rintro ⟨t, h1, h2⟩
    exact ⟨t, h2, h1⟩

/-- Claim C7: the completeness checker is a case-insensitive substring search
for the three literal phrases, emitting exactly one fixed message per absent
phrase; "Flooring installed" yields exactly the insulation and wall-finish
messages. -/
theorem claim_C7 :
    (∀ n h : List Char, hasSub n h = true ↔ n <:+: h) ∧
    (∀ text : List Char,
        ("Missing Flooring Information" ∈ detect_missing_info text ↔
          hasSub "flooring".toList (strLower text) = false) ∧
        ("Missing Insulation Information" ∈ detect_missing_info text ↔
          hasSub "insulation".toList (strLower text) = false) ∧
        ("Missing Wall Finish Information" ∈ detect_missing_info text ↔
          hasSub "wall finish".toList (strLower text) = false) ∧
        (detect_missing_info text).length
          = (if hasSub "flooring".toList (strLower text) then 0 else 1)
            + ((if hasSub "insulation".toList (strLower text) then 0 else 1)
              + (if hasSub "wall finish".toList (strLower text) then 0 else 1))) ∧
    detect_missing_info "Flooring installed".toList
      = ["Missing Insulation Information", "Missing Wall Finish Information"] := by
  refine ⟨hasSub_iff, ?_, by decide⟩
  intro text
  rcases h1 : hasSub "flooring".toList (strLower text) <;>
    rcases h2 : hasSub "insulation".toList (strLower text) <;>
      rcases h3 : hasSub "wall finish".toList (strLower text) <;>
        (simp only [detect_missing_info, h1, h2, h3, Bool.false_eq_true, if_true, if_false]
         <;> decide)

/-- Claim C6: a filename whose lower-cased extension is not one of pdf, png,
jpg, jpeg, dwg makes `process` fail with the unsupported-file-type error — the
result is the error for every possible extractor behavior, i.e. before any
extractor is invoked — and no report is produced for it. -/
theorem claim_C6 :
    (∀ filename : List Char,
        routeOf filename = none ↔
          strLower (extOf filename) ∉
            [ "pdf".toList, "png".toList, "jpg".toList, "jpeg".toList, "dwg".toList ]) ∧
    (∀ (readText : Route → List Char) (filename : List Char),
        routeOf filename = none →
        process readText filename = Except.error "Unsupported file type") ∧
    (∀ readText : Route → List Char,
        process readText "drawing.txt".toList = Except.error "Unsupported file type") := by
  refine ⟨?_, ?_, ?_⟩
  · intro filename
    simp only [routeOf, List.mem_cons, List.not_mem_nil, or_false]
    split_ifs with h1 h2 h3 <;> simp_all <;> tauto
  · intro readText filename h
    simp [process, h]
  · intro readText
    have h : routeOf ['d', 'r', 'a', 'w', 'i', 'n', 'g', '.', 't', 'x', 't'] = none := by decide
    simp [process, h]

theorem claim_C6_witness :
    process (fun _ => []) "drawing.txt".toList = Except.error "Unsupported file type" :=
  claim_C6.2.1 (fun _ => []) "drawing.txt".toList (by decide)

theorem splitDot_ne_nil : ∀ cs : List Char, splitDot cs ≠ [] := by
  intro cs
  induction cs with
  | nil => simp [splitDot]
  | cons c cs ih =>
    simp only [splitDot]
    split
    · simp
    · split <;> simp

theorem splitDot_no_dot : ∀ cs : List Char, '.' ∉ cs → splitDot cs = [cs] := by
  intro cs
  induction cs with
  | nil => intro _; rfl
  | cons c cs ih =>
    intro h
    simp only [List.mem_cons, not_or] at h
    obtain ⟨h1, h2⟩ := h
    simp only [splitDot]
    rw [if_neg (fun hh => h1 hh.symm)]
    rw [ih h2]

theorem splitDot_length_two : ∀ cs : List Char, '.' ∈ cs → 2 ≤ (splitDot cs).length := by
  intro cs
  induction cs with
  | nil => intro h; simp at h
  | cons c cs ih =>
    intro h
    simp only [splitDot]
    split
    · have := splitDot_ne_nil cs
      have : 1 ≤ (splitDot cs).length := List.length_pos.mpr this
      simp only [List.length_cons]
      omega
    · rename_i hc
      have hmem : '.' ∈ cs := by
        rcases List.mem_cons.mp h with h | h
        · exact absurd h.symm hc
        · exact h
      have h2 := ih hmem
      match hsd : splitDot cs with
      | [] => exact absurd hsd (splitDot_ne_nil cs)
      | g :: gs =>
        rw [hsd] at h2
        simpa using h2

theorem getLastD_irrel {α : Type} : ∀ (l : List α), l ≠ [] → ∀ a b : α,
    l.getLastD a = l.getLastD b := by
  intro l hl a b
  match l with
  | [] => exact absurd rfl hl
  | x :: l' => rw [List.getLastD_cons, List.getLastD_cons]

theorem extOf_no_dot {fn : List Char} (h : '.' ∉ fn) : extOf fn = fn := by
  simp [extOf, splitDot_no_dot fn h]

theorem extOf_append_dot : ∀ (pre fn : List Char), extOf (pre ++ '.' :: fn) = extOf fn := by
  intro pre
  induction pre with
  | nil =>
    intro fn
    simp only [List.nil_append, extOf, splitDot, if_true, List.getLastD_cons]
  | cons c pre ih =>
    intro fn
    simp only [List.cons_append, extOf, splitDot]
    by_cases hc : c = '.'
    · rw [if_pos hc]
      simp only [List.getLastD_cons]
      have := ih fn
      simp only [extOf] at this
      rw [← this]
      exact getLastD_irrel _ (splitDot_ne_nil _) _ _
    · rw [if_neg hc]
      have hne := splitDot_ne_nil (pre ++ '.' :: fn)
      have h2 := splitDot_length_two (pre ++ '.' :: fn) (by simp)
      have hext := ih fn
      simp only [extOf] at hext
      match hsd : splitDot (pre ++ '.' :: fn) with
      | [] => exact absurd hsd hne
      | g :: gs =>
        rw [hsd] at h2 hext
        have hgs : gs ≠ [] := by
          intro hh
          subst hh
          simp at h2
        simp only [List.getLastD_cons] at hext ⊢
        rw [getLastD_irrel gs hgs (c :: g) g, hext]

/-- Claim C9: extension routing uses only the text after the last dot, a
dotless filename is routed by its whole lower-cased name, so the filenames
"pdf", "png", "jpg", "jpeg", "dwg" are dispatched to the corresponding
extractor instead of raising, and "a.b.pdf" is treated as a PDF. -/
theorem claim_C9 :
    (∀ (pre fn : List Char), extOf (pre ++ '.' :: fn) = extOf fn) ∧
    (∀ fn : List Char, '.' ∉ fn → extOf fn = fn) ∧
    (∀ readText : Route → List Char,
        process readText "pdf".toList = Except.ok (buildReport (readText Route.pdf)) ∧
        process readText "png".toList = Except.ok (buildReport (readText Route.image)) ∧
        process readText "jpg".toList = Except.ok (buildReport (readText Route.image)) ∧
        process readText "jpeg".toList = Except.ok (buildReport (readText Route.image)) ∧
        process readText "dwg".toList = Except.ok (buildReport (readText Route.dwg)) ∧
        process readText "a.b.pdf".toList = Except.ok (buildReport (readText Route.pdf))) := by
  refine ⟨extOf_append_dot, fun fn h => extOf_no_dot h, ?_⟩
  intro readText
  have h1 : routeOf ['p', 'd', 'f'] = some Route.pdf := by decide
  have h2 : routeOf ['p', 'n', 'g'] = some Route.image := by decide
  have h3 : routeOf ['j', 'p', 'g'] = some Route.image := by decide
  have h4 : routeOf ['j', 'p', 'e', 'g'] = some Route.image := by decide
  have h5 : routeOf ['d', 'w', 'g'] = some Route.dwg := by decide
  have h6 : routeOf ['a', '.', 'b', '.', 'p', 'd', 'f'] = some Route.pdf := by decide
  refine ⟨?_, ?_, ?_, ?_, ?_, ?_⟩ <;> simp [process, h1, h2, h3, h4, h5, h6]

theorem claim_C9_witness :
    extOf "pdf".toList = "pdf".toList ∧
    process (fun _ => []) "pdf".toList
      = Except.ok (buildReport ((fun _ => ([] : List Char)) Route.pdf)) :=
  ⟨claim_C9.2.1 "pdf".toList (by decide), (claim_C9.2.2 (fun _ => [])).1⟩

theorem searchScale_eq : ∀ t : List Char, searchScale t = t.tails.findSome? scaleMatchAt := by
  intro t
  induction t with
  | nil => rfl
  | cons c cs ih =>
    rw [searchScale, List.tails_cons, List.findSome?_cons]
    cases h : scaleMatchAt (c :: cs)
    · simpa [h] using ih
    · simp [h]

theorem searchScale_none : ∀ t : List Char,
    (∀ s ∈ t.tails, scaleMatchAt s = none) → searchScale t = none := by
  intro t
  induction t with
  | nil => intro _; rfl
  | cons c cs ih =>
    intro h
    rw [searchScale]
    have hh := h (c :: cs) (by simp [List.mem_tails])
    rw [hh]
    exact ih fun s hs => h s (by
      simp only [List.mem_tails] at hs ⊢
      exact hs.trans (List.suffix_cons c cs))

theorem scanMeasurementsF_of_none : ∀ (fuel : ℕ) (cs : List Char),
    (∀ s ∈ cs.tails, matchAt s = none) → scanMeasurementsF fuel cs = [] := by
  intro fuel
  induction fuel with
  | zero => intro cs _; cases cs <;> rfl
  | succ fuel ih =>
    intro cs h
    match cs with
    | [] => rfl
    | c :: cs' =>
      rw [scanMeasurementsF]
      have hh := h (c :: cs') (by simp [List.mem_tails])
      rw [hh]
      exact ih cs' fun s hs => h s (by
        simp only [List.mem_tails] at hs ⊢
        exact hs.trans (List.suffix_cons c cs'))

/-- Claim C8: regex non-matches never raise — the scale extractor is total,
returning the first match's denominator (leftmost position wins) and an absent
value when no position matches, and the measurement parser returns the empty
list when no position matches. -/
theorem claim_C8 :
    (∀ t : List Char, extract_scale t = t.tails.findSome? scaleMatchAt) ∧
    (∀ t : List Char, (∀ s ∈ t.tails, scaleMatchAt s = none) → extract_scale t = none) ∧
    (∀ t : List Char, (∀ s ∈ (strLower t).tails, matchAt s = none) →
        extract_measurements t = []) ∧
    extract_scale "Scale 1:50 and Scale 1:100".toList = some 50 ∧
    extract_scale "no declarations here".toList = none ∧
    extract_measurements "no dimensions appear here".toList = [] := by
  refine ⟨?_, ?_, ?_, by decide, by decide, by rfl⟩
  · intro t
    exact searchScale_eq t
  · intro t h
    exact searchScale_none t h
  · intro t h
    exact scanMeasurementsF_of_none _ _ h

theorem claim_C8_witness :
    extract_scale "plain note".toList = none ∧
    extract_measurements "plain note".toList = [] :=
  ⟨claim_C8.2.1 "plain note".toList (by decide),
    claim_C8.2.2.1 "plain note".toList (by decide)⟩
